import Mathlib

/-!
Verification development for the onshape_mjcf core: a shallow embedding of
the inertial composer (`util/inertial.py`), the identity model and topology
helpers (`onshape_data/__init__.py`, `onshape_data/topology.py`) and the
kinematic tree assembler (`robot_description.py`), together with proofs and
refutations of the specified properties.

Python floats are modelled as rationals; `numpy` vectors and matrices are
modelled as fixed-size records of rationals.  Division by zero in the
rational model stands for the floating-point NaN the source produces.
Fallible code is modelled with `Except String`.
-/

namespace OnshapeMjcf

/-- A 3-vector of rationals, modelling a `numpy` 3-array of floats. -/
structure Vec3 where
  x : ℚ
  y : ℚ
  z : ℚ
  deriving DecidableEq, Repr

def Vec3.add (a b : Vec3) : Vec3 := ⟨a.x + b.x, a.y + b.y, a.z + b.z⟩

def Vec3.sub (a b : Vec3) : Vec3 := ⟨a.x - b.x, a.y - b.y, a.z - b.z⟩

def Vec3.smul (k : ℚ) (v : Vec3) : Vec3 := ⟨k * v.x, k * v.y, k * v.z⟩

def Vec3.dot (a b : Vec3) : ℚ := a.x * b.x + a.y * b.y + a.z * b.z

/-- Componentwise division by a scalar, as `numpy` broadcasts `v / k`.
Rational division by zero yields zero, standing for the NaN floats give. -/
def Vec3.divScalar (v : Vec3) (k : ℚ) : Vec3 := ⟨v.x / k, v.y / k, v.z / k⟩

def vec3Zero : Vec3 := ⟨0, 0, 0⟩

def vecSum (l : List Vec3) : Vec3 := l.foldr Vec3.add vec3Zero

/-- A 3x3 matrix of rationals, stored as rows. -/
structure Mat3 where
  r0 : Vec3
  r1 : Vec3
  r2 : Vec3
  deriving DecidableEq, Repr

def Mat3.add (a b : Mat3) : Mat3 := ⟨a.r0.add b.r0, a.r1.add b.r1, a.r2.add b.r2⟩

def Mat3.sub (a b : Mat3) : Mat3 := ⟨a.r0.sub b.r0, a.r1.sub b.r1, a.r2.sub b.r2⟩

def Mat3.smul (k : ℚ) (m : Mat3) : Mat3 := ⟨Vec3.smul k m.r0, Vec3.smul k m.r1, Vec3.smul k m.r2⟩

def Mat3.transpose (m : Mat3) : Mat3 :=
  ⟨⟨m.r0.x, m.r1.x, m.r2.x⟩, ⟨m.r0.y, m.r1.y, m.r2.y⟩, ⟨m.r0.z, m.r1.z, m.r2.z⟩⟩

/-- Matrix product, row i of `a` dotted with column j of `b`. -/
def Mat3.mul (a b : Mat3) : Mat3 :=
  ⟨⟨a.r0.dot b.transpose.r0, a.r0.dot b.transpose.r1, a.r0.dot b.transpose.r2⟩,
   ⟨a.r1.dot b.transpose.r0, a.r1.dot b.transpose.r1, a.r1.dot b.transpose.r2⟩,
   ⟨a.r2.dot b.transpose.r0, a.r2.dot b.transpose.r1, a.r2.dot b.transpose.r2⟩⟩

def mat3Zero : Mat3 := ⟨vec3Zero, vec3Zero, vec3Zero⟩

/-- The identity matrix, as `np.eye(3)`. -/
def mat3Id : Mat3 := ⟨⟨1, 0, 0⟩, ⟨0, 1, 0⟩, ⟨0, 0, 1⟩⟩

/-- The outer product `np.outer(a, b)`. -/
def outer (a b : Vec3) : Mat3 := ⟨Vec3.smul a.x b, Vec3.smul a.y b, Vec3.smul a.z b⟩

def matSum (l : List Mat3) : Mat3 := l.foldr Mat3.add mat3Zero

/-- A 4-vector of rationals. -/
structure Vec4 where
  x : ℚ
  y : ℚ
  z : ℚ
  w : ℚ
  deriving DecidableEq, Repr

def Vec4.dot (a b : Vec4) : ℚ := a.x * b.x + a.y * b.y + a.z * b.z + a.w * b.w

/-- A 4x4 homogeneous transform, stored as rows. -/
structure Mat4 where
  r0 : Vec4
  r1 : Vec4
  r2 : Vec4
  r3 : Vec4
  deriving DecidableEq, Repr

/-- The padding `np.pad(v, (0, 1), constant_values=1)` of a 3-vector. -/
def padOne (v : Vec3) : Vec4 := ⟨v.x, v.y, v.z, 1⟩

/-- The first three components of `t @ pad(v, 1)`. -/
def Mat4.applyPoint (t : Mat4) (v : Vec3) : Vec3 :=
  ⟨t.r0.dot (padOne v), t.r1.dot (padOne v), t.r2.dot (padOne v)⟩

/-- The rotation block `t[:3, :3]`. -/
def Mat4.rotation (t : Mat4) : Mat3 :=
  ⟨⟨t.r0.x, t.r0.y, t.r0.z⟩, ⟨t.r1.x, t.r1.y, t.r1.z⟩, ⟨t.r2.x, t.r2.y, t.r2.z⟩⟩

/-- The identity transform `np.eye(4)`. -/
def mat4Id : Mat4 :=
  ⟨⟨1, 0, 0, 0⟩, ⟨0, 1, 0, 0⟩, ⟨0, 0, 1, 0⟩, ⟨0, 0, 0, 1⟩⟩

/-- `InertialData` of `util/inertial.py`: a centroid, a mass and an inertia
tensor about the centroid, all in one local frame. -/
structure InertialData where
  centroid : Vec3
  mass : ℚ
  inertia : Mat3
  deriving DecidableEq, Repr

/-- An element of the list handed to `combineInertials`: either a plain
`InertialData` (whose `normalize` is the identity) or a
`TransformedInertialData` carrying a pending 4x4 transform. -/
inductive InertialSample where
  | plain (d : InertialData)
  | transformed (d : InertialData) (transform : Mat4)
  deriving DecidableEq, Repr

/-- `normalize` of `util/inertial.py`: the identity on plain data; on
transformed data it maps the centroid through the transform as a homogeneous
point and rotates the inertia tensor by the rotation block. -/
def InertialSample.normalize : InertialSample → InertialData
  | .plain d => d
  | .transformed d t =>
      ⟨t.applyPoint d.centroid, d.mass, (t.rotation.mul d.inertia).mul t.rotation.transpose⟩

/-- The mass carried by a sample. -/
def InertialSample.mass : InertialSample → ℚ
  | .plain d => d.mass
  | .transformed d _ => d.mass

/-- The body of `combineInertials` after the samples have been normalized:
guards only against the empty list, then computes the total mass, the
mass-weighted centroid (divided by the total mass with no zero guard) and
the parallel-axis combination of the inertia tensors. -/
def combineNormalized (ns : List InertialData) : Except String InertialData :=
  if ns.length = 0 then
    .error "Empty inertials list provided"
  else
    let total_mass : ℚ := (ns.map (fun i => i.mass)).sum
    let combined_centroid :=
      (vecSum (ns.map (fun i => Vec3.smul i.mass i.centroid))).divScalar total_mass
    let combined_inertia := matSum (ns.map (fun i =>
      Mat3.add i.inertia (Mat3.smul i.mass
        (Mat3.sub
          (Mat3.smul (Vec3.dot (combined_centroid.sub i.centroid) (combined_centroid.sub i.centroid)) mat3Id)
          (outer (combined_centroid.sub i.centroid) (combined_centroid.sub i.centroid))))))
    .ok ⟨combined_centroid, total_mass, combined_inertia⟩

/-- `combineInertials` of `util/inertial.py`: normalize every sample, then
combine. -/
def combineInertials (inertials : List InertialSample) : Except String InertialData :=
  combineNormalized (inertials.map InertialSample.normalize)

/-!
## Identity model: `InstancePath` (`onshape_data/__init__.py`)

`InstanceId`s and the root `QualifiedRef` are opaque identifiers; both are
modelled as natural numbers.
-/

/-- `InstancePath`: a root reference and an ordered sequence of instance
ids addressing one occurrence in the assembly tree. -/
structure InstancePath where
  root : ℕ
  elements : List ℕ
  deriving DecidableEq, Repr

/-- `__len__`: the number of elements of the path. -/
def InstancePath.len (p : InstancePath) : ℕ := p.elements.length

/-- An argument Python passes to `__getitem__`: either an integer index or
a slice object (as produced by the subscript syntax `p[:k]`). -/
inductive PyIndex where
  | int (i : ℤ)
  | slice (start stop : Option ℤ)
  deriving DecidableEq, Repr

/-- Python list prefix `l[:j]` for an integer `j`: the first `j` elements
when `j` is nonnegative, and all but the last `-j` elements when `j` is
negative. -/
def pyPrefix (l : List ℕ) (j : ℤ) : List ℕ :=
  if 0 ≤ j then l.take j.toNat else l.take (l.length - (-j).toNat)

/-- `InstancePath.__getitem__`: the body evaluates `elements[:idx + 1]`.
For an integer index this is the prefix of length `idx + 1`; for a slice
argument the expression `idx + 1` raises a `TypeError` before anything else
happens, because Python cannot add a slice object and an integer. -/
def InstancePath.getItem (p : InstancePath) (idx : PyIndex) : Except String InstancePath :=
  match idx with
  | .int i => .ok ⟨p.root, pyPrefix p.elements (i + 1)⟩
  | .slice _ _ => .error "TypeError: unsupported operand types for + (slice and int)"

/-- Follows the spec's words, for comparison with `InstancePath.getItem`:
prefix truncation `path[:k]` keeps the same root and the first `k`
elements. -/
def specSlicePrefix (p : InstancePath) (k : ℕ) : InstancePath :=
  ⟨p.root, p.elements.take k⟩

/-!
## `findCommonAncestor` (`onshape_data/topology.py`)
-/

/-- The index of the first position at which the two lists disagree, or
`none` when they agree on their whole common length (also when one list
ends first). -/
def firstMismatch : List ℕ → List ℕ → Option ℕ
  | [], _ => none
  | _, [] => none
  | x :: xs, y :: ys => if x = y then (firstMismatch xs ys).map (· + 1) else some 0

/-- One iteration of the outer loop of `findCommonAncestor`: scan
`zip(islice(elems, count), occ.elements)` for the first divergence and set
`count = min(idx, count)`; leave `count` unchanged when no divergence is
found within the compared range. -/
def stepCount (F : List ℕ) (c : ℕ) (q : List ℕ) : ℕ :=
  match firstMismatch (F.take c) q with
  | some i => min i c
  | none => c

/-- `findCommonAncestor`: the list models the iteration order of the input
set.  An empty input raises an `IndexError` at `occurrences[0]`; a root
mismatch fails the `assert first.root == occ.root`; otherwise the result is
the prefix of the first path of the final `count`. -/
def findCommonAncestor (occurrences : List InstancePath) : Except String InstancePath :=
  match occurrences with
  | [] => .error "IndexError: list index out of range"
  | first :: rest =>
    if rest.all (fun o => o.root == first.root) then
      .ok ⟨first.root,
        first.elements.take
          (rest.foldl (fun c q => stepCount first.elements c q.elements) first.elements.length)⟩
    else .error "AssertionError"

/-- Follows the spec's words, for comparison with `findCommonAncestor`:
walk two element sequences in lockstep and stop at the first divergence,
including when one sequence ends before the other diverges. -/
def specLcp2 : List ℕ → List ℕ → List ℕ
  | [], _ => []
  | _ :: _, [] => []
  | x :: xs, y :: ys => if x = y then x :: specLcp2 xs ys else []

/-- Follows the spec's words: the nearest common ancestor keeps the shared
root and the longest common prefix of all the paths' element sequences. -/
def specCommonAncestor (paths : List InstancePath) : Option InstancePath :=
  match paths with
  | [] => none
  | first :: rest =>
    some ⟨first.root, rest.foldl (fun acc q => specLcp2 acc q.elements) first.elements⟩

/-!
## Mate-graph edge collection: `findComponents.addEdges`
(`onshape_data/topology.py`)

Occurrence paths are opaque graph nodes here, modelled as natural numbers;
`canonicalizePath` is the caller-supplied canonicalization function.
-/

/-- A mate feature as `addEdges` sees it: a plain mate (with mate type and
its two mated occurrences), a mate group (with its member occurrences), or
a mate connector (which `addEdges` ignores).  Every feature carries its
`FeatureId` and its suppression flag. -/
inductive Feature where
  | mate (fid : ℕ) (suppressed : Bool) (mateType : String) (occ1 occ2 : ℕ)
  | mateGroup (fid : ℕ) (suppressed : Bool) (occurrences : List ℕ)
  | mateConnector (fid : ℕ) (suppressed : Bool)
  deriving DecidableEq, Repr

def Feature.fid : Feature → ℕ
  | .mate fid _ _ _ _ => fid
  | .mateGroup fid _ _ => fid
  | .mateConnector fid _ => fid

/-- Replace a feature's suppression flag. -/
def Feature.setSuppressed (b : Bool) : Feature → Feature
  | .mate fid _ mt o1 o2 => .mate fid b mt o1 o2
  | .mateGroup fid _ os => .mateGroup fid b os
  | .mateConnector fid _ => .mateConnector fid b

/-- The edges one non-excluded feature contributes in `addEdges`: a
FASTENED mate links its two mated occurrences; a mate group contributes a
star from its first occurrence (an empty group raises an `IndexError` at
`occurrences[0]`); anything else contributes nothing.  The suppression flag
is never consulted. -/
def edgesOfFeature (canon : ℕ → ℕ) : Feature → Except String (List (ℕ × ℕ))
  | .mate _ _ mt o1 o2 => .ok (if mt = "FASTENED" then [(canon o1, canon o2)] else [])
  | .mateGroup _ _ [] => .error "IndexError: list index out of range"
  | .mateGroup _ _ (o0 :: os) => .ok (os.map (fun o => (canon o0, canon o)))
  | .mateConnector _ _ => .ok []

/-- `findComponents.addEdges`: skip features in the excluded id set, then
collect each remaining feature's edges in order. -/
def addEdges (excluded : List ℕ) (canon : ℕ → ℕ) : List Feature → Except String (List (ℕ × ℕ))
  | [] => .ok []
  | f :: fs =>
    if f.fid ∈ excluded then addEdges excluded canon fs
    else
      match edgesOfFeature canon f with
      | .error e => .error e
      | .ok es =>
        match addEdges excluded canon fs with
        | .error e => .error e
        | .ok r => .ok (es ++ r)

/-!
## Component segmentation: `findComponents` (`onshape_data/topology.py`)

`nx.Graph` records nodes in insertion order; `nx.connected_components`
yields each unseen node's component in that order; `sorted` over Python
sets is a stable comparison sort whose strict order is *proper subset* (so
on pairwise disjoint component sets every comparison is false and the
discovery order is kept).
-/

/-- Append a node to the insertion-order list if it is new, as
`nx.Graph.add_edge` does. -/
def insertNew (acc : List ℕ) (x : ℕ) : List ℕ := if x ∈ acc then acc else acc ++ [x]

/-- The node insertion order produced by adding the given edges in order. -/
def nodesInOrder (edges : List (ℕ × ℕ)) : List ℕ :=
  edges.foldl (fun acc e => insertNew (insertNew acc e.1) e.2) []

/-- Undirected adjacency of the built graph. -/
def adjacent (edges : List (ℕ × ℕ)) (u v : ℕ) : Bool :=
  edges.any (fun e => (e.1 == u && e.2 == v) || (e.1 == v && e.2 == u))

/-- One round of closure under adjacency. -/
def expandOnce (edges : List (ℕ × ℕ)) (s : Finset ℕ) : Finset ℕ :=
  s ∪ ((nodesInOrder edges).filter (fun v => decide (∃ u ∈ s, adjacent edges u v = true))).toFinset

/-- The connected component of a node: closure under adjacency, iterated
once per node of the graph. -/
def reachableSet (edges : List (ℕ × ℕ)) (x : ℕ) : Finset ℕ :=
  Nat.iterate (expandOnce edges) (nodesInOrder edges).length {x}

/-- Walk the nodes in insertion order, emitting each not-yet-seen node's
component, as `nx.connected_components` does. -/
def ccAux (edges : List (ℕ × ℕ)) : List ℕ → Finset ℕ → List (Finset ℕ)
  | [], _ => []
  | x :: xs, seen =>
    if x ∈ seen then ccAux edges xs seen
    else reachableSet edges x :: ccAux edges xs (seen ∪ reachableSet edges x)

/-- The components in discovery order. -/
def componentsInOrder (edges : List (ℕ × ℕ)) : List (Finset ℕ) :=
  ccAux edges (nodesInOrder edges) ∅

/-- Stable insertion of a set into a list, placing it before the first
strictly larger set (Python set `<` is proper subset):  this models
Python's stable `sorted` on a list of sets. -/
def pyInsert (s : Finset ℕ) : List (Finset ℕ) → List (Finset ℕ)
  | [] => [s]
  | t :: ts => if s ⊂ t then s :: t :: ts else t :: pyInsert s ts

/-- `sorted` over a list of Python sets: a stable comparison sort whose
strict order is proper subset. -/
def pySortedSets (l : List (Finset ℕ)) : List (Finset ℕ) :=
  l.foldl (fun acc s => pyInsert s acc) []

/-- `findComponents`, after mates have been collected into an edge list:
`sorted(nx.connected_components(graph))`. -/
def findComponents (edges : List (ℕ × ℕ)) : List (Finset ℕ) :=
  pySortedSets (componentsInOrder edges)

/-!
## Occurrence tree and `findStrictSubtrees` (`onshape_data/topology.py`)

A tree node is a tuple of instance-id path elements, as in
`makeOccurranceTree`, which turns a set of paths into the prefix tree whose
nodes are all path prefixes (including the empty root `()`), each node's
children being its one-element extensions.
-/

/-- All prefixes of a path, root included. -/
def prefixesOf (p : List ℕ) : List (List ℕ) :=
  (List.range (p.length + 1)).map (fun k => p.take k)

/-- The node set of `makeOccurranceTree paths`. -/
def treeNodes (paths : List (List ℕ)) : Finset (List ℕ) :=
  ((paths.map prefixesOf).flatten).toFinset

/-- The successor (children) set of a node in `makeOccurranceTree paths`:
its one-element extensions that are nodes. -/
def treeSucc (paths : List (List ℕ)) (n : List ℕ) : Finset (List ℕ) :=
  (treeNodes paths).filter (fun m => m.length = n.length + 1 ∧ m.take n.length = n)

/-- Membership in `common_subtrees` of `findStrictSubtrees`: the node's
child set is the same in both trees.  The source's inner loop over the
successors (`if succ not in common_subtrees: continue`) is a no-op — the
`continue` only advances the inner loop and nothing follows it — so whether
the children themselves head common subtrees is never actually checked. -/
def commonSubtreePred (superPaths subPaths : List (List ℕ)) (n : List ℕ) : Bool :=
  decide (treeSucc superPaths n = treeSucc subPaths n)

/-- The pre-order selection of `findStrictSubtrees`: starting at the root,
select a node and prune its children when it is a common subtree, otherwise
recurse into its children.  Fuel bounds the recursion depth; one more than
the longest path is always enough. -/
def selectRoots (isCommon : List ℕ → Bool) (succ : List ℕ → Finset (List ℕ)) :
    ℕ → List ℕ → Finset (List ℕ)
  | 0, _ => ∅
  | fuel + 1, n =>
    if isCommon n then {n}
    else (succ n).biUnion (fun c => selectRoots isCommon succ fuel c)

/-- `findStrictSubtrees super sub` with the default root `()`. -/
def findStrictSubtrees (superPaths subPaths : List (List ℕ)) : Finset (List ℕ) :=
  selectRoots (commonSubtreePred superPaths subPaths) (treeSucc subPaths)
    ((subPaths.map List.length).foldr max 0 + 1) []

/-- The full subtree of a node in the occurrence tree over `paths`: every
node of which `n` is a prefix. -/
def subtreeIn (paths : List (List ℕ)) (n : List ℕ) : Finset (List ℕ) :=
  (treeNodes paths).filter (fun m => m.take n.length = n)

/-!
## Component-index assignment (`robot_description.py`, `from_onshape`)

The section "Map DOFs to components": each DOF's endpoints are mapped to
component indices and checked to lie in two distinct components; then each
equality constraint's endpoints are mapped — but the self-loop check in the
equality loop reads the stale loop variable `dof` left over from the DOF
loop, not the current `equality`.  Endpoint occurrence paths are opaque and
modelled as naturals; `compIdx` models the `pathToComponentIdx` mapping.
-/

/-- The fields of a `RobotDof` that the component-mapping section reads. -/
structure RobotDofB where
  child : ℕ
  parent : ℕ
  deriving DecidableEq, Repr

/-- The fields of an `EqualityConstraint` that the component-mapping
section reads. -/
structure EqualityConstraintB where
  left : ℕ
  right : ℕ
  deriving DecidableEq, Repr

/-- The DOF loop: assign `(childComp, parentComp)` to every DOF and raise
when both endpoints land in the same component. -/
def mapDofsToComponents (compIdx : ℕ → ℕ) : List RobotDofB → Except String (List (ℕ × ℕ))
  | [] => .ok []
  | d :: ds =>
    if compIdx d.child = compIdx d.parent then
      .error "DOF needs to be between two separate components, was to itself"
    else
      match mapDofsToComponents compIdx ds with
      | .error e => .error e
      | .ok r => .ok ((compIdx d.child, compIdx d.parent) :: r)

/-- The equality loop: assign `(leftComp, rightComp)` to every equality
constraint.  The source's self-loop check tests `dof.childComp ==
dof.parentComp` on the stale variable `dof` — the last DOF of the previous
loop — not the current equality; when there was no DOF at all, the name
`dof` is unbound and Python raises a `NameError` at the first equality. -/
def mapEqualitiesToComponents (compIdx : ℕ → ℕ) (lastDof : Option RobotDofB) :
    List EqualityConstraintB → Except String (List (ℕ × ℕ))
  | [] => .ok []
  | e :: es =>
    match lastDof with
    | none => .error "NameError: name dof is not defined"
    | some d =>
      if compIdx d.child = compIdx d.parent then
        .error "Equality needs to be between two separate components, was to itself"
      else
        match mapEqualitiesToComponents compIdx lastDof es with
        | .error err => .error err
        | .ok r => .ok ((compIdx e.left, compIdx e.right) :: r)

/-- The whole component-mapping section: the DOF loop, then the equality
loop with the stale `dof` variable bound to the last DOF. -/
def mapEndpointsToComponents (compIdx : ℕ → ℕ) (dofs : List RobotDofB)
    (eqs : List EqualityConstraintB) : Except String (List (ℕ × ℕ) × List (ℕ × ℕ)) :=
  match mapDofsToComponents compIdx dofs with
  | .error e => .error e
  | .ok ds =>
    match mapEqualitiesToComponents compIdx dofs.getLast? eqs with
    | .error e => .error e
    | .ok es => .ok (ds, es)

/-!
## Kinematic tree assembly (`robot_description.py`, `from_onshape`)

The component graph has the component indices as nodes (modelled as
`Fin n`, every index of `pathToComponentIdx.values()` since every component
is non-empty) and one weighted edge per DOF, the weight being the DOF name.
`nx.bfs_tree` is breadth-first search: a visited set, a queue of discovered
nodes, and a directed tree edge per newly discovered node.
-/

/-- State of the breadth-first traversal of `nx.bfs_tree`: the discovered
node set, the queue of discovered-but-unprocessed nodes, and the directed
tree edges in discovery order. -/
structure BfsState (n : ℕ) where
  visited : Finset (Fin n)
  queue : List (Fin n)
  tree : List (Fin n × Fin n)

/-- Adjacency of the undirected component graph built by
`graph.add_weighted_edges_from` over the DOF list: a node's neighbours are
the opposite endpoints of the edges it occurs in. -/
def adjOf (n : ℕ) (edges : List (Fin n × Fin n × String)) (u : Fin n) : List (Fin n) :=
  (edges.filterMap (fun e =>
    if e.1 = u then some e.2.1 else if e.2.1 = u then some e.1 else none)).dedup

/-- The neighbours of `u` discovered when `u` is dequeued: its adjacent
nodes not yet visited. -/
def bfsNews (adj : Fin n → List (Fin n)) (visited : Finset (Fin n)) (u : Fin n) : List (Fin n) :=
  ((adj u).filter (fun v => decide (v ∉ visited))).dedup

/-- Breadth-first search: dequeue a node, mark its undiscovered neighbours
visited, enqueue them and record one tree edge each.  Fuel-indexed; each
node is enqueued at most once, so `2 * n + 1` steps always drain the
queue. -/
def bfsRun (adj : Fin n → List (Fin n)) : ℕ → BfsState n → BfsState n
  | 0, s => s
  | fuel + 1, s =>
    match s.queue with
    | [] => s
    | u :: rest =>
      bfsRun adj fuel
        ⟨s.visited ∪ (bfsNews adj s.visited u).toFinset,
         rest ++ bfsNews adj s.visited u,
         s.tree ++ (bfsNews adj s.visited u).map (fun v => (u, v))⟩

/-- `nx.bfs_tree(graph, rootComponentIdx)` on the component graph. -/
def bfsTree (n : ℕ) (edges : List (Fin n × Fin n × String)) (root : Fin n) : BfsState n :=
  bfsRun (adjOf n edges) (2 * n + 1) ⟨{root}, [root], []⟩

/-- The nodes in the order the traversal first visits them: the root, then
each tree edge's child in discovery order. -/
def bfsOrder (n : ℕ) (edges : List (Fin n × Fin n × String)) (root : Fin n) : List (Fin n) :=
  root :: (bfsTree n edges root).tree.map Prod.snd

/-- The `componentEdges[u]` bucket of `from_onshape`: the BFS tree's
out-edges of `u`. -/
def componentEdges (s : BfsState n) (u : Fin n) : List (Fin n × Fin n) :=
  s.tree.filter (fun e => decide (e.1 = u))

/-- Reachability from the root in the component graph; "exactly one
connected component" means every node is reachable. -/
inductive Reach (adj : Fin n → List (Fin n)) (root : Fin n) : Fin n → Prop
  | refl : Reach adj root root
  | tail {v w : Fin n} : Reach adj root v → w ∈ adj v → Reach adj root w

/-- Order the endpoints of an undirected edge canonically. -/
def normPair (e : Fin n × Fin n) : Fin n × Fin n := if e.1 ≤ e.2 then e else (e.2, e.1)

/-- The number of distinct undirected edges of the component graph.  For a
connected graph, `len(nx.cycle_basis(graph)) == 0` is equivalent to this
count being `n - 1` (the cycle space has dimension `m - n + 1`). -/
def uEdgeCount (n : ℕ) (edges : List (Fin n × Fin n × String)) : ℕ :=
  ((edges.map (fun e => normPair (e.1, e.2.1))).toFinset).card

/-- The breadth-first invariant: the root is visited; queued nodes are
visited; every visited node is either still queued or has all neighbours
visited; the visited set is exactly the root plus the tree children; no
node is discovered twice; the root is never a child; and tree edges follow
the adjacency. -/
structure BfsInv (adj : Fin n → List (Fin n)) (root : Fin n) (s : BfsState n) : Prop where
  root_mem : root ∈ s.visited
  queue_sub : ∀ u ∈ s.queue, u ∈ s.visited
  frontier : ∀ u ∈ s.visited, u ∈ s.queue ∨ ∀ v ∈ adj u, v ∈ s.visited
  visited_eq : s.visited = insert root (s.tree.map Prod.snd).toFinset
  children_nodup : (s.tree.map Prod.snd).Nodup
  root_not_child : root ∉ s.tree.map Prod.snd
  edges_adj : ∀ e ∈ s.tree, e.2 ∈ adj e.1

end OnshapeMjcf

namespace OnshapeMjcf

/-!
## Theorems: the inertial composer
-/

theorem InertialSample.normalize_mass (s : InertialSample) : s.normalize.mass = s.mass := by
  cases s <;> rfl

theorem mat4Id_applyPoint (v : Vec3) : mat4Id.applyPoint v = v := by
  obtain ⟨x, y, z⟩ := v
  simp [Mat4.applyPoint, mat4Id, Vec4.dot, padOne]

theorem mat3Id_transpose : mat3Id.transpose = mat3Id := rfl

theorem mat3Id_mul (m : Mat3) : mat3Id.mul m = m := by
  obtain ⟨⟨a, b, c⟩, ⟨d, e, f⟩, ⟨g, h, i⟩⟩ := m
  simp [Mat3.mul, Mat3.transpose, Vec3.dot, mat3Id]

theorem mul_mat3Id (m : Mat3) : m.mul mat3Id = m := by
  obtain ⟨⟨a, b, c⟩, ⟨d, e, f⟩, ⟨g, h, i⟩⟩ := m
  simp [Mat3.mul, Mat3.transpose, Vec3.dot, mat3Id]

theorem normalize_transformed_mat4Id (d : InertialData) :
    (InertialSample.transformed d mat4Id).normalize = d := by
  simp only [InertialSample.normalize]
  rw [show mat4Id.rotation = mat3Id from rfl, mat4Id_applyPoint, mat3Id_transpose,
    mat3Id_mul, mul_mat3Id]

theorem combineNormalized_singleton (d : InertialData) (h : d.mass ≠ 0) :
    combineNormalized [d] = .ok d := by
  obtain ⟨⟨cx, cy, cz⟩, m, ⟨⟨a, b, c⟩, ⟨e, f, g⟩, ⟨p, q, r⟩⟩⟩ := d
  have hm : m ≠ 0 := h
  simp [combineNormalized, vecSum, matSum, Vec3.add, Vec3.smul, Vec3.divScalar, Vec3.sub,
    Vec3.dot, Mat3.add, Mat3.smul, Mat3.sub, mat3Id, mat3Zero, vec3Zero, outer,
    InertialData.mk.injEq, Vec3.mk.injEq, Mat3.mk.injEq]
  have key : ∀ t : ℚ, m * t / m = t := fun t => mul_div_cancel_left₀ t hm
  simp [key]

/-- Claim C4, counterexample: the mass-conservation property is quantified
over all finite lists including the empty list, but `combineInertials` of
the empty list raises instead of returning an `InertialData` whose mass is
the empty sum. -/
theorem combineInertials_empty_raises :
    combineInertials [] = Except.error "Empty inertials list provided" := rfl

/-- Claim C4, amended: for every non-empty finite list of samples,
`combineInertials` returns an `InertialData` whose mass is exactly the sum
of the input samples' masses. -/
theorem combineInertials_mass_conservation (l : List InertialSample) (h : l ≠ []) :
    ∃ res, combineInertials l = Except.ok res ∧ res.mass = (l.map InertialSample.mass).sum := by
  unfold combineInertials combineNormalized
  have hlen : ¬((l.map InertialSample.normalize).length = 0) := by
    simpa [List.length_eq_zero] using h
  rw [if_neg hlen]
  refine ⟨_, rfl, ?_⟩
  show ((l.map InertialSample.normalize).map (fun i => i.mass)).sum = _
  rw [List.map_map,
    show ((fun i => InertialData.mass i) ∘ InertialSample.normalize) = InertialSample.mass from
      funext InertialSample.normalize_mass]

/-- Witness for claim C4 at a concrete one-element list. -/
theorem combineInertials_mass_conservation_witness :
    ([InertialSample.plain ⟨⟨1, 2, 3⟩, 5, mat3Zero⟩] ≠ ([] : List InertialSample)) ∧
      ∃ res, combineInertials [InertialSample.plain ⟨⟨1, 2, 3⟩, 5, mat3Zero⟩] = Except.ok res ∧
        res.mass = ([InertialSample.plain ⟨⟨1, 2, 3⟩, 5, mat3Zero⟩].map InertialSample.mass).sum :=
  ⟨by simp, combineInertials_mass_conservation _ (by simp)⟩

/-- Claim C7, counterexample: a single zero-mass sample carrying the
identity transform is not reproduced — the unguarded division by the zero
total mass replaces the centroid (NaN in the source's floats, the junk
value of rational division by zero here), so the result differs from the
input sample. -/
theorem combineInertials_identity_zero_mass_cex :
    combineInertials [InertialSample.transformed ⟨⟨1, 0, 0⟩, 0, mat3Zero⟩ mat4Id] =
        Except.ok ⟨⟨0, 0, 0⟩, 0, mat3Zero⟩ ∧
      (InertialData.mk ⟨0, 0, 0⟩ 0 mat3Zero) ≠ ⟨⟨1, 0, 0⟩, 0, mat3Zero⟩ := by
  constructor
  · simp [combineInertials, combineNormalized, InertialSample.normalize, Mat4.applyPoint,
      Mat4.rotation, mat4Id, Vec4.dot, padOne, Mat3.mul, Mat3.transpose, Vec3.dot, mat3Id,
      mat3Zero, vec3Zero, vecSum, matSum, Vec3.add, Vec3.smul, Vec3.divScalar, Vec3.sub,
      Mat3.add, Mat3.smul, Mat3.sub, outer, InertialData.mk.injEq, Vec3.mk.injEq, Mat3.mk.injEq]
  · simp [InertialData.mk.injEq, Vec3.mk.injEq]

/-- Claim C7, amended: for every single sample with an identity transform
and nonzero mass, `combineInertials` reproduces the sample's mass, centroid
and inertia tensor unchanged. -/
theorem combineInertials_single_identity (d : InertialData) (h : d.mass ≠ 0) :
    combineInertials [InertialSample.transformed d mat4Id] = Except.ok d := by
  unfold combineInertials
  rw [List.map_cons, List.map_nil, normalize_transformed_mat4Id]
  exact combineNormalized_singleton d h

/-- Witness for claim C7 at the sample of the repository's own single
sample test. -/
theorem combineInertials_single_identity_witness :
    (InertialData.mk ⟨1, 2, 3⟩ 5 ⟨⟨1, 0, 0⟩, ⟨0, 2, 0⟩, ⟨0, 0, 3⟩⟩).mass ≠ 0 ∧
      combineInertials [InertialSample.transformed
          ⟨⟨1, 2, 3⟩, 5, ⟨⟨1, 0, 0⟩, ⟨0, 2, 0⟩, ⟨0, 0, 3⟩⟩⟩ mat4Id] =
        Except.ok ⟨⟨1, 2, 3⟩, 5, ⟨⟨1, 0, 0⟩, ⟨0, 2, 0⟩, ⟨0, 0, 3⟩⟩⟩ :=
  ⟨by norm_num, combineInertials_single_identity _ (by norm_num)⟩

/-- Claim C10: `combineInertials` guards only against the empty list; for
every non-empty list whose masses sum to zero it returns an `InertialData`
(no error), with zero total mass and with the centroid computed by the
unguarded division of the weighted centroid sum by the zero total mass
(NaN in the source's floats; rational division by zero here). -/
theorem combineInertials_zero_mass_unguarded (l : List InertialSample) (hne : l ≠ [])
    (hm : (l.map InertialSample.mass).sum = 0) :
    ∃ res, combineInertials l = Except.ok res ∧ res.mass = 0 ∧
      res.centroid =
        (vecSum ((l.map InertialSample.normalize).map
          (fun i => Vec3.smul i.mass i.centroid))).divScalar 0 := by
  have hsum : ((l.map InertialSample.normalize).map (fun i => i.mass)).sum = 0 := by
    rw [List.map_map,
      show ((fun i => InertialData.mass i) ∘ InertialSample.normalize) = InertialSample.mass from
        funext InertialSample.normalize_mass]
    exact hm
  unfold combineInertials combineNormalized
  have hlen : ¬((l.map InertialSample.normalize).length = 0) := by
    simpa [List.length_eq_zero] using hne
  rw [if_neg hlen]
  exact ⟨_, rfl, hsum, by rw [hsum]⟩

/-- Witness for claim C10 at a concrete zero-mass one-element list. -/
theorem combineInertials_zero_mass_unguarded_witness :
    ([InertialSample.plain ⟨⟨1, 0, 0⟩, 0, mat3Zero⟩] ≠ ([] : List InertialSample)) ∧
      (([InertialSample.plain ⟨⟨1, 0, 0⟩, 0, mat3Zero⟩].map InertialSample.mass).sum = 0) ∧
      ∃ res, combineInertials [InertialSample.plain ⟨⟨1, 0, 0⟩, 0, mat3Zero⟩] = Except.ok res ∧
        res.mass = 0 ∧
        res.centroid =
          (vecSum (([InertialSample.plain ⟨⟨1, 0, 0⟩, 0, mat3Zero⟩].map
            InertialSample.normalize).map (fun i => Vec3.smul i.mass i.centroid))).divScalar 0 :=
  ⟨by simp, by simp [InertialSample.mass],
    combineInertials_zero_mass_unguarded _ (by simp) (by simp [InertialSample.mass])⟩

end OnshapeMjcf

namespace OnshapeMjcf

/-!
## Theorems: the identity model
-/

/-- Claim C9, counterexample: `p[:k]` does not evaluate to the prefix of
length `k` — `__getitem__` only supports integer indices, and a slice
argument raises a `TypeError` at `idx + 1`; shown at the concrete path with
two elements and `k = 1`, where the spec-side slice is the one-element
prefix. -/
theorem instancePath_slice_cex :
    InstancePath.getItem ⟨0, [1, 2]⟩ (.slice none (some 1)) =
        Except.error "TypeError: unsupported operand types for + (slice and int)" ∧
      specSlicePrefix ⟨0, [1, 2]⟩ 1 = ⟨0, [1]⟩ := ⟨rfl, rfl⟩

/-- Claim C9, amended: for `0 <= k <= len(p)`, the slice expression
`p[:k]` raises a `TypeError` (only integer indexing is supported), the
integer indexing `p[k]` returns the path with the same root and the first
`k + 1` elements, and `len(p)` is the number of elements of `p`. -/
theorem instancePath_getItem_spec (p : InstancePath) (k : ℕ) (hk : k ≤ p.len) :
    InstancePath.getItem p (.slice none (some k)) =
        Except.error "TypeError: unsupported operand types for + (slice and int)" ∧
      InstancePath.getItem p (.int k) = Except.ok ⟨p.root, p.elements.take (k + 1)⟩ ∧
      p.len = p.elements.length := by
  refine ⟨rfl, ?_, rfl⟩
  have ht : ((k : ℤ) + 1).toNat = k + 1 := by omega
  simp only [InstancePath.getItem, pyPrefix]
  rw [if_pos (by omega : (0 : ℤ) ≤ (k : ℤ) + 1), ht]

/-- Witness for claim C9 at a concrete path and index. -/
theorem instancePath_getItem_spec_witness :
    (1 ≤ InstancePath.len ⟨0, [1, 2]⟩) ∧
      (InstancePath.getItem ⟨0, [1, 2]⟩ (.slice none (some 1)) =
          Except.error "TypeError: unsupported operand types for + (slice and int)" ∧
        InstancePath.getItem ⟨0, [1, 2]⟩ (.int 1) = Except.ok ⟨0, [1, 2]⟩ ∧
        InstancePath.len ⟨0, [1, 2]⟩ = 2) :=
  ⟨by decide, instancePath_getItem_spec ⟨0, [1, 2]⟩ 1 (by decide)⟩

/-!
## Theorems: `findCommonAncestor`
-/

/-- Claim C8, counterexample: when one input path is a proper prefix of the
first path, its end is not treated as a divergence — the code returns the
whole first path, not the longest common prefix the spec describes. -/
theorem findCommonAncestor_prefix_cex :
    findCommonAncestor [⟨0, [1, 2]⟩, ⟨0, [1]⟩] = Except.ok ⟨0, [1, 2]⟩ ∧
      specCommonAncestor [⟨0, [1, 2]⟩, ⟨0, [1]⟩] = some ⟨0, [1]⟩ ∧
      (InstancePath.mk 0 [1, 2]) ≠ ⟨0, [1]⟩ :=
  ⟨rfl, rfl, by decide⟩

theorem specLcp2_eq_take (F : List ℕ) :
    ∀ q : List ℕ, (firstMismatch F q = none → F.length ≤ q.length) →
      specLcp2 F q = F.take ((firstMismatch F q).getD F.length) := by
  induction F with
  | nil => intro q h; simp [specLcp2, firstMismatch]
  | cons x xs ih =>
    intro q h
    cases q with
    | nil => exact absurd (h rfl) (by simp)
    | cons y ys =>
      by_cases hxy : x = y
      · subst hxy
        simp only [specLcp2, if_pos rfl, firstMismatch]
        cases hm : firstMismatch xs ys with
        | some i =>
          have := ih ys (fun hn => by simp [hn] at hm)
          rw [hm] at this
          simp [this]
        | none =>
          have hlen : xs.length ≤ ys.length := by
            have := h (by simp [firstMismatch, hm])
            simpa using this
          have := ih ys (fun _ => hlen)
          rw [hm] at this
          simp [this]
      · simp [specLcp2, hxy, firstMismatch]

theorem firstMismatch_take_none_length (F : List ℕ) :
    ∀ (q : List ℕ) (c : ℕ), (firstMismatch F q = none → F.length ≤ q.length) →
      firstMismatch (F.take c) q = none → (F.take c).length ≤ q.length := by
  induction F with
  | nil => intro q c _ _; simp
  | cons x xs ih =>
    intro q c h hn
    cases c with
    | zero => simp
    | succ c =>
      cases q with
      | nil => exact absurd (h rfl) (by simp)
      | cons y ys =>
        rw [List.take_succ_cons] at hn ⊢
        by_cases hxy : x = y
        · subst hxy
          simp [firstMismatch] at hn
          have h' : firstMismatch xs ys = none → xs.length ≤ ys.length := by
            intro hnone
            have := h (by simp [firstMismatch, hnone])
            simpa using this
          have := ih ys c h' hn
          simpa using this
        · simp [firstMismatch, hxy] at hn

theorem stepCount_le (F : List ℕ) (c : ℕ) (q : List ℕ) : stepCount F c q ≤ c := by
  unfold stepCount
  cases firstMismatch (F.take c) q with
  | none => exact le_rfl
  | some i => exact min_le_right i c

theorem specLcp2_take_eq (F q : List ℕ) (c : ℕ)
    (h : firstMismatch F q = none → F.length ≤ q.length) :
    specLcp2 (F.take c) q = F.take (stepCount F c q) := by
  have h' := firstMismatch_take_none_length F q c h
  rw [specLcp2_eq_take (F.take c) q h', stepCount]
  cases hm : firstMismatch (F.take c) q with
  | some i => simp [List.take_take]
  | none => simp

theorem foldl_specLcp2_eq (F : List ℕ) (qs : List (List ℕ)) :
    ∀ c, (∀ q ∈ qs, firstMismatch F q = none → F.length ≤ q.length) →
      qs.foldl (fun acc q => specLcp2 acc q) (F.take c) =
        F.take (qs.foldl (fun c' q => stepCount F c' q) c) := by
  induction qs with
  | nil => intro c _; rfl
  | cons q qs ih =>
    intro c hq
    simp only [List.foldl_cons]
    rw [specLcp2_take_eq F q c (hq q (by simp))]
    exact ih (stepCount F c q) (fun q' hq' => hq q' (by simp [hq']))

/-- Claim C8, amended: for every non-empty path list sharing one root in
which no path that agrees with the first within the compared range is
shorter than the first path, `findCommonAncestor` returns exactly the
spec's nearest common ancestor — the path whose elements are the longest
common prefix of all the inputs, computed by the lockstep walk
`specLcp2`. -/
theorem findCommonAncestor_lcp (first : InstancePath) (rest : List InstancePath)
    (hroot : ∀ q ∈ rest, q.root = first.root)
    (hpre : ∀ q ∈ rest, firstMismatch first.elements q.elements = none →
      first.elements.length ≤ q.elements.length) :
    findCommonAncestor (first :: rest) =
      Except.ok ⟨first.root, rest.foldl (fun acc q => specLcp2 acc q.elements) first.elements⟩ := by
  simp only [findCommonAncestor]
  have hall : rest.all (fun o => o.root == first.root) = true := by
    rw [List.all_eq_true]
    intro o ho
    exact beq_iff_eq.mpr (hroot o ho)
  rw [if_pos hall]
  have key := foldl_specLcp2_eq first.elements (rest.map (fun q => q.elements))
    first.elements.length
    (by intro q' hq'
        rcases List.mem_map.mp hq' with ⟨q, hq, rfl⟩
        exact hpre q hq)
  rw [List.take_length, List.foldl_map, List.foldl_map] at key
  rw [← key]

/-- Witness for claim C8 at two concrete diverging paths. -/
theorem findCommonAncestor_lcp_witness :
    (∀ q ∈ [InstancePath.mk 0 [1, 3]], q.root = InstancePath.root ⟨0, [1, 2]⟩) ∧
      (∀ q ∈ [InstancePath.mk 0 [1, 3]],
        firstMismatch [1, 2] q.elements = none → 2 ≤ q.elements.length) ∧
      findCommonAncestor [⟨0, [1, 2]⟩, ⟨0, [1, 3]⟩] = Except.ok ⟨0, [1]⟩ := by
  refine ⟨by decide, by decide, ?_⟩
  have := findCommonAncestor_lcp ⟨0, [1, 2]⟩ [⟨0, [1, 3]⟩] (by decide) (by decide)
  simpa using this

end OnshapeMjcf

namespace OnshapeMjcf

/-!
## Theorems: mate-graph edge collection and segmentation
-/

/-- Claim C5, counterexample: a suppressed FASTENED mate that is not in the
excluded set still contributes its edge — `addEdges` never consults the
suppression flag, contradicting the claim that suppressed rigid mates
contribute no edge. -/
theorem addEdges_suppressed_cex :
    addEdges [] id [Feature.mate 7 true "FASTENED" 1 2] = Except.ok [(1, 2)] ∧ (1 : ℕ) ≠ 2 :=
  ⟨rfl, by decide⟩

theorem setSuppressed_fid (b : Bool) (f : Feature) :
    (Feature.setSuppressed b f).fid = f.fid := by
  cases f <;> rfl

theorem setSuppressed_edges (canon : ℕ → ℕ) (b : Bool) (f : Feature) :
    edgesOfFeature canon (Feature.setSuppressed b f) = edgesOfFeature canon f := by
  cases f with
  | mate fid s mt o1 o2 => rfl
  | mateConnector fid s => rfl
  | mateGroup fid s os => cases os <;> rfl

/-- Claim C5, amended: `addEdges` is invariant under arbitrary rewriting of
the suppression flags, and an edge between the two (canonicalized) mated
occurrences is added for every FASTENED mate not in the excluded feature-id
set — suppressed or not. -/
theorem addEdges_ignores_suppression (excluded : List ℕ) (canon : ℕ → ℕ)
    (feats : List Feature) (b : Bool) :
    addEdges excluded canon (feats.map (Feature.setSuppressed b)) = addEdges excluded canon feats ∧
      ∀ fid s o1 o2 res, Feature.mate fid s "FASTENED" o1 o2 ∈ feats → fid ∉ excluded →
        addEdges excluded canon feats = Except.ok res → (canon o1, canon o2) ∈ res := by
  constructor
  · induction feats with
    | nil => rfl
    | cons f fs ih =>
      simp only [List.map_cons, addEdges, setSuppressed_fid, setSuppressed_edges, ih]
  · induction feats with
    | nil => intro fid s o1 o2 res hmem; simp at hmem
    | cons f fs ih =>
      intro fid s o1 o2 res hmem hex hres
      rcases List.mem_cons.mp hmem with hf | hf
      · subst hf
        rw [addEdges] at hres
        simp only [Feature.fid] at hres
        rw [if_neg hex] at hres
        simp only [edgesOfFeature, if_pos rfl] at hres
        cases hr : addEdges excluded canon fs with
        | error e => rw [hr] at hres; exact absurd hres (by simp)
        | ok r =>
          rw [hr] at hres
          simp only [Except.ok.injEq] at hres
          subst hres
          simp
      · rw [addEdges] at hres
        by_cases hf' : f.fid ∈ excluded
        · rw [if_pos hf'] at hres
          exact ih fid s o1 o2 res hf hex hres
        · rw [if_neg hf'] at hres
          cases he : edgesOfFeature canon f with
          | error e => rw [he] at hres; exact absurd hres (by simp)
          | ok es =>
            rw [he] at hres
            cases hr : addEdges excluded canon fs with
            | error e => rw [hr] at hres; exact absurd hres (by simp)
            | ok r =>
              rw [hr] at hres
              simp only [Except.ok.injEq] at hres
              subst hres
              exact List.mem_append.mpr (Or.inr (ih fid s o1 o2 r hf hex hr))

/-- Witness for claim C5 at a concrete one-mate feature list. -/
theorem addEdges_ignores_suppression_witness :
    ((7 : ℕ) ∉ ([] : List ℕ)) ∧
      (addEdges [] id ([Feature.mate 7 false "FASTENED" 1 2].map (Feature.setSuppressed true)) =
          addEdges [] id [Feature.mate 7 false "FASTENED" 1 2] ∧
        ∀ fid s o1 o2 res,
          Feature.mate fid s "FASTENED" o1 o2 ∈ [Feature.mate 7 false "FASTENED" 1 2] →
          fid ∉ ([] : List ℕ) →
          addEdges [] id [Feature.mate 7 false "FASTENED" 1 2] = Except.ok res →
          (id o1, id o2) ∈ res) :=
  ⟨by simp, addEdges_ignores_suppression [] id [Feature.mate 7 false "FASTENED" 1 2] true⟩

/-- Claim C6: segmentation is not deterministic under input reordering.
The same two FASTENED edges presented in the two orders produce the same
partition as a set of sets but two differently ordered component lists:
`sorted` over Python sets orders by proper subset, which never fires on
disjoint components, so the stable sort keeps the discovery order. -/
theorem findComponents_order_dependent :
    findComponents [(0, 1), (2, 3)] = [({0, 1} : Finset ℕ), {2, 3}] ∧
      findComponents [(2, 3), (0, 1)] = [({2, 3} : Finset ℕ), {0, 1}] ∧
      findComponents [(0, 1), (2, 3)] ≠ findComponents [(2, 3), (0, 1)] ∧
      (findComponents [(0, 1), (2, 3)]).toFinset = (findComponents [(2, 3), (0, 1)]).toFinset :=
  ⟨by decide, by decide, by decide, by decide⟩

/-!
## Theorems: `findStrictSubtrees` and the component mapping
-/

/-- Claim C3: evaluation of `findStrictSubtrees` at the occurrence tree
over the paths `[0]`, `[0,1]`, `[0,2]` and the component part set
`{[0,1]}`.  The root `()` is selected even though its full subtree in the
occurrence tree contains `[0,2]`, an instance outside the component — the
child `[0]` is not a common subtree, but the source's no-op inner loop
never checks that — so aggregating mass over the selected roots would count
the outside part. -/
theorem findStrictSubtrees_outside_instance :
    findStrictSubtrees [[0], [0, 1], [0, 2]] [[0, 1]] = {([] : List ℕ)} ∧
      [0, 2] ∈ subtreeIn [[0], [0, 1], [0, 2]] [] ∧
      [0, 2] ∉ treeNodes [[0, 1]] ∧
      commonSubtreePred [[0], [0, 1], [0, 2]] [[0, 1]] [0] = false :=
  ⟨by decide, by decide, by decide, by decide⟩

/-- Claim C2: evaluation of the component-mapping section at one valid DOF
(components 0 and 1) and one equality constraint whose endpoints both map
to component 2.  No error is raised — the self-loop check in the equality
loop reads the stale `dof` variable — and the self-loop equality `(2, 2)`
is returned. -/
theorem equality_self_loop_not_checked :
    mapEndpointsToComponents (fun n => n / 2) [⟨0, 2⟩] [⟨4, 5⟩] =
        Except.ok ([(0, 1)], [(2, 2)]) ∧
      (fun n : ℕ => n / 2) 4 = (fun n : ℕ => n / 2) 5 :=
  ⟨rfl, rfl⟩

end OnshapeMjcf

namespace OnshapeMjcf

/-!
## Theorems: the breadth-first kinematic tree
-/

theorem mem_bfsNews {adj : Fin n → List (Fin n)} {vis : Finset (Fin n)} {u v : Fin n} :
    v ∈ bfsNews adj vis u ↔ v ∈ adj u ∧ v ∉ vis := by
  simp [bfsNews, List.mem_dedup, List.mem_filter]

theorem bfsNews_nodup (adj : Fin n → List (Fin n)) (vis : Finset (Fin n)) (u : Fin n) :
    (bfsNews adj vis u).Nodup := List.nodup_dedup _

theorem bfsNews_card (adj : Fin n → List (Fin n)) (vis : Finset (Fin n)) (u : Fin n) :
    (vis ∪ (bfsNews adj vis u).toFinset).card = vis.card + (bfsNews adj vis u).length := by
  rw [Finset.card_union_of_disjoint, List.toFinset_card_of_nodup (bfsNews_nodup adj vis u)]
  rw [Finset.disjoint_right]
  intro v hv
  exact (mem_bfsNews.mp (List.mem_toFinset.mp hv)).2

theorem map_snd_pair (u : Fin n) (l : List (Fin n)) :
    ((l.map (fun v => (u, v))).map Prod.snd) = l := by
  induction l with
  | nil => rfl
  | cons x xs ih => simp [ih]

theorem bfsRun_queue_nil (adj : Fin n → List (Fin n)) :
    ∀ (fuel : ℕ) (s : BfsState n),
      2 * (n - s.visited.card) + s.queue.length ≤ fuel → (bfsRun adj fuel s).queue = [] := by
  intro fuel
  induction fuel with
  | zero =>
    intro s h
    show s.queue = []
    exact List.length_eq_zero.mp (by omega)
  | succ fuel ih =>
    intro s h
    obtain ⟨vis, queue, tr⟩ := s
    cases queue with
    | nil => rfl
    | cons u rest =>
      show (bfsRun adj fuel _).queue = []
      apply ih
      have hcard := bfsNews_card adj vis u
      have hle : (vis ∪ (bfsNews adj vis u).toFinset).card ≤ n := by
        refine le_trans (Finset.card_le_univ _) ?_
        simp
      simp only [List.length_cons] at h
      simp only [List.length_append]
      omega

theorem bfsInv_step (adj : Fin n → List (Fin n)) (root : Fin n) (vis : Finset (Fin n))
    (u : Fin n) (rest : List (Fin n)) (tr : List (Fin n × Fin n))
    (h : BfsInv adj root ⟨vis, u :: rest, tr⟩) :
    BfsInv adj root
      ⟨vis ∪ (bfsNews adj vis u).toFinset, rest ++ bfsNews adj vis u,
        tr ++ (bfsNews adj vis u).map (fun v => (u, v))⟩ := by
  obtain ⟨hroot, hqsub, hfront, hveq, hnodup, hrnc, headj⟩ := h
  dsimp only at hroot hqsub hfront hveq hnodup hrnc headj
  refine ⟨?_, ?_, ?_, ?_, ?_, ?_, ?_⟩
  · exact Finset.mem_union_left _ hroot
  · intro w hw
    rcases List.mem_append.mp hw with hw | hw
    · exact Finset.mem_union_left _ (hqsub w (List.mem_cons_of_mem u hw))
    · exact Finset.mem_union_right _ (List.mem_toFinset.mpr hw)
  · intro w hw
    rcases Finset.mem_union.mp hw with hw | hw
    · rcases hfront w hw with hq | hcl
      · rcases List.mem_cons.mp hq with rfl | hr
        · right
          intro v hv
          by_cases hvv : v ∈ vis
          · exact Finset.mem_union_left _ hvv
          · exact Finset.mem_union_right _ (List.mem_toFinset.mpr (mem_bfsNews.mpr ⟨hv, hvv⟩))
        · exact Or.inl (List.mem_append.mpr (Or.inl hr))
      · exact Or.inr (fun v hv => Finset.mem_union_left _ (hcl v hv))
    · exact Or.inl (List.mem_append.mpr (Or.inr (List.mem_toFinset.mp hw)))
  · show vis ∪ _ = _
    rw [List.map_append, map_snd_pair, List.toFinset_append, ← Finset.insert_union, ← hveq]
  · show ((tr ++ _).map Prod.snd).Nodup
    rw [List.map_append, map_snd_pair]
    refine hnodup.append (bfsNews_nodup adj vis u) ?_
    intro x hx hx'
    have hxv : x ∈ vis := by
      rw [hveq]
      exact Finset.mem_insert_of_mem (List.mem_toFinset.mpr hx)
    exact (mem_bfsNews.mp hx').2 hxv
  · show root ∉ _
    rw [List.map_append, map_snd_pair]
    intro hmem
    rcases List.mem_append.mp hmem with hmem | hmem
    · exact hrnc hmem
    · exact (mem_bfsNews.mp hmem).2 hroot
  · intro e he
    rcases List.mem_append.mp he with he | he
    · exact headj e he
    · rcases List.mem_map.mp he with ⟨v, hv, rfl⟩
      exact (mem_bfsNews.mp hv).1

theorem bfsInv_run (adj : Fin n → List (Fin n)) (root : Fin n) :
    ∀ (fuel : ℕ) (s : BfsState n), BfsInv adj root s → BfsInv adj root (bfsRun adj fuel s) := by
  intro fuel
  induction fuel with
  | zero => intro s h; exact h
  | succ fuel ih =>
    intro s h
    obtain ⟨vis, queue, tr⟩ := s
    cases queue with
    | nil => exact h
    | cons u rest => exact ih _ (bfsInv_step adj root vis u rest tr h)

theorem bfsInv_init (adj : Fin n → List (Fin n)) (root : Fin n) :
    BfsInv adj root ⟨{root}, [root], []⟩ := by
  refine ⟨?_, ?_, ?_, ?_, ?_, ?_, ?_⟩ <;> simp

theorem sum_componentEdges_length (l : List (Fin n × Fin n)) :
    (∑ u : Fin n, (l.filter (fun e => decide (e.1 = u))).length) = l.length := by
  induction l with
  | nil => simp
  | cons e tl ih =>
    have hsplit : ∀ u : Fin n, ((e :: tl).filter (fun x => decide (x.1 = u))).length =
        (if e.1 = u then 1 else 0) + (tl.filter (fun x => decide (x.1 = u))).length := by
      intro u
      by_cases he : e.1 = u <;> simp [List.filter_cons, he] <;> omega
    simp only [hsplit]
    rw [Finset.sum_add_distrib, ih, Finset.sum_ite_eq]
    simp [List.length_cons]
    omega

/-- Claim C1: for every component graph with exactly one connected
component (every node reachable from the designated root) and zero cycles
(`len(cycle_basis) == 0`, i.e. distinct undirected edge count `n - 1`), the
breadth-first traversal of `from_onshape` visits every component node
exactly once (its visit order covers every node without duplicates), the
BFS tree together with the grouped `componentEdges` buckets has exactly
`n - 1` edges in total, and every non-root component is the child endpoint
of exactly one tree edge. -/
theorem kinematic_tree_wellformed (n : ℕ) (edges : List (Fin n × Fin n × String)) (root : Fin n)
    (hconn : ∀ v : Fin n, Reach (adjOf n edges) root v)
    (hacyc : uEdgeCount n edges + 1 = n) :
    (bfsOrder n edges root).Nodup ∧
      (∀ v : Fin n, v ∈ bfsOrder n edges root) ∧
      (bfsTree n edges root).tree.length + 1 = n ∧
      (∀ v : Fin n, v ≠ root →
        ((bfsTree n edges root).tree.map Prod.snd).count v = 1) ∧
      (∑ u : Fin n, (componentEdges (bfsTree n edges root) u).length) + 1 = n := by
  have hq : (bfsTree n edges root).queue = [] := by
    apply bfsRun_queue_nil (adjOf n edges) (2 * n + 1)
    simp only [Finset.card_singleton, List.length_cons, List.length_nil]
    omega
  have hinv : BfsInv (adjOf n edges) root (bfsTree n edges root) :=
    bfsInv_run _ root _ _ (bfsInv_init _ root)
  have hclosed : ∀ u ∈ (bfsTree n edges root).visited, ∀ v ∈ adjOf n edges u,
      v ∈ (bfsTree n edges root).visited := by
    intro u hu
    rcases hinv.frontier u hu with hq' | h
    · rw [hq] at hq'
      simp at hq'
    · exact h
  have hreach : ∀ v, Reach (adjOf n edges) root v → v ∈ (bfsTree n edges root).visited := by
    intro v hv
    induction hv with
    | refl => exact hinv.root_mem
    | tail hr hadj ih => exact hclosed _ ih _ hadj
  have huniv : (bfsTree n edges root).visited = Finset.univ :=
    Finset.eq_univ_iff_forall.mpr (fun v => hreach v (hconn v))
  have hveq := hinv.visited_eq
  have hnodup := hinv.children_nodup
  have hrnc := hinv.root_not_child
  have hlen : ((bfsTree n edges root).tree.map Prod.snd).length + 1 = n := by
    have hcardv : (bfsTree n edges root).visited.card = n := by
      rw [huniv, Finset.card_univ, Fintype.card_fin]
    have hci : (bfsTree n edges root).visited.card =
        ((bfsTree n edges root).tree.map Prod.snd).toFinset.card + 1 := by
      rw [hveq, Finset.card_insert_of_not_mem (by simpa using hrnc)]
    rw [List.toFinset_card_of_nodup hnodup] at hci
    omega
  refine ⟨List.nodup_cons.mpr ⟨hrnc, hnodup⟩, ?_, ?_, ?_, ?_⟩
  · intro v
    have hv : v ∈ (bfsTree n edges root).visited := by
      rw [huniv]
      exact Finset.mem_univ v
    rw [hveq] at hv
    rcases Finset.mem_insert.mp hv with rfl | hv
    · exact List.mem_cons_self _ _
    · exact List.mem_cons_of_mem _ (List.mem_toFinset.mp hv)
  · rw [List.length_map] at hlen
    exact hlen
  · intro v hv
    have hmem : v ∈ (bfsTree n edges root).tree.map Prod.snd := by
      have hv' : v ∈ (bfsTree n edges root).visited := by
        rw [huniv]
        exact Finset.mem_univ v
      rw [hveq] at hv'
      rcases Finset.mem_insert.mp hv' with rfl | hv'
      · exact absurd rfl hv
      · exact List.mem_toFinset.mp hv'
    exact List.count_eq_one_of_mem hnodup hmem
  · have hsum := sum_componentEdges_length (bfsTree n edges root).tree
    simp only [componentEdges]
    rw [hsum]
    rw [List.length_map] at hlen
    exact hlen

/-- Witness for claim C1 at the two-component graph with the single DOF
edge named j. -/
theorem kinematic_tree_wellformed_witness :
    (∀ v : Fin 2, Reach (adjOf 2 [(0, 1, "j")]) 0 v) ∧
      uEdgeCount 2 [(0, 1, "j")] + 1 = 2 ∧
      ((bfsOrder 2 [(0, 1, "j")] 0).Nodup ∧
        (∀ v : Fin 2, v ∈ bfsOrder 2 [(0, 1, "j")] 0) ∧
        (bfsTree 2 [(0, 1, "j")] 0).tree.length + 1 = 2 ∧
        (∀ v : Fin 2, v ≠ 0 →
          ((bfsTree 2 [(0, 1, "j")] 0).tree.map Prod.snd).count v = 1) ∧
        (∑ u : Fin 2, (componentEdges (bfsTree 2 [(0, 1, "j")] 0) u).length) + 1 = 2) := by
  have hconn : ∀ v : Fin 2, Reach (adjOf 2 [(0, 1, "j")]) 0 v := by
    intro v
    fin_cases v
    · exact Reach.refl
    · exact Reach.tail Reach.refl (by decide)
  exact ⟨hconn, by decide, kinematic_tree_wellformed 2 [(0, 1, "j")] 0 hconn (by decide)⟩

end OnshapeMjcf
